import Mathlib

/-!
Verification of the YAML-AST path-matching and range-extraction engine of
`src/workflow/diagnostics.ts` (vscode-github-actions).

Modelling conventions:
* Character offsets into the document are modelled by `Nat`.
* `vscode.Position` values are modelled by their character offset
  (`document.offsetAt` / `document.positionAt` form an order isomorphism
  between offsets and positions, so `Range.contains` on positions is the
  inclusive interval test on offsets).
* JavaScript truthiness of a key string (`if (key)`) is modelled by
  `truthyKey`, which rejects the empty string.
* The third-party YAML parser (`safeLoad`) is modelled by an arbitrary
  `loader : String → Option YAMLNode` parameter: it may fail (`none`).
-/

namespace GHA

/-- Key node of a YAML mapping entry: a scalar carrying the key string
(`node.key.value` in the source). -/
structure KeyNode where
  value : String
deriving DecidableEq, Repr

/-- Shallow embedding of the `YAMLNode` shape used by `diagnostics.ts`:
`startPosition`/`endPosition` offsets, an optional `key` node, an optional
`value` node, optional `mappings`/`items` child lists, and the raw scalar
text `rawValue`. -/
inductive YAMLNode : Type where
  | mk (startPosition : Nat) (endPosition : Nat) (key : Option KeyNode)
       (value : Option YAMLNode) (mappings : Option (List YAMLNode))
       (items : Option (List YAMLNode)) (rawValue : String) : YAMLNode

def YAMLNode.startPosition : YAMLNode → Nat
  | .mk s _ _ _ _ _ _ => s

def YAMLNode.endPosition : YAMLNode → Nat
  | .mk _ e _ _ _ _ _ => e

def YAMLNode.key : YAMLNode → Option KeyNode
  | .mk _ _ k _ _ _ _ => k

def YAMLNode.value : YAMLNode → Option YAMLNode
  | .mk _ _ _ v _ _ _ => v

def YAMLNode.mappings : YAMLNode → Option (List YAMLNode)
  | .mk _ _ _ _ m _ _ => m

def YAMLNode.items : YAMLNode → Option (List YAMLNode)
  | .mk _ _ _ _ _ i _ => i

def YAMLNode.rawValue : YAMLNode → String
  | .mk _ _ _ _ _ _ r => r

/-- `node.mappings ?? node.value?.mappings ?? node.value?.items ?? []`
(the child enumeration shared by `findNode` and `getAllMatchingNodes`). -/
def children (node : YAMLNode) : List YAMLNode :=
  match node.mappings with
  | some l => l
  | none =>
    match node.value with
    | none => []
    | some v =>
      match v.mappings with
      | some l => l
      | none =>
        match v.items with
        | some l => l
        | none => []

/-- JavaScript truthiness of `node.key?.value`: the key string when the key
node is present and the string is nonempty (an empty string is falsy). -/
def truthyKey (node : YAMLNode) : Option String :=
  match node.key with
  | some k => if k.value = "" then none else some k.value
  | none => none

theorem sizeOf_children_lt (n : YAMLNode) : sizeOf (children n) < sizeOf n := by
  cases n with
  | mk s e k v m i r =>
    simp only [children, YAMLNode.mappings, YAMLNode.value, YAMLNode.items]
    cases m with
    | some l => simp; omega
    | none =>
      cases v with
      | none => simp; omega
      | some v' =>
        cases v' with
        | mk s' e' k' v'' m' i' r' =>
          simp only [YAMLNode.mappings, YAMLNode.items]
          cases m' with
          | some l => simp; omega
          | none =>
            cases i' with
            | some l => simp; omega
            | none => simp; omega

theorem sizeOf_mem_children {c n : YAMLNode} (h : c ∈ children n) :
    sizeOf c < sizeOf n :=
  Nat.lt_trans (List.sizeOf_lt_of_mem h) (sizeOf_children_lt n)

/-- `if (key) path.push(key)`: append the node's truthy key, if any. -/
def pushKey (node : YAMLNode) (path : List String) : List String :=
  match truthyKey node with
  | some k => path ++ [k]
  | none => path

mutual

/-- Inner recursion of `findNode`: the containment test, key push (mutation
of the shared `path` array is modelled by threading the path), child
descent with short-circuit on the first child that yields a node, and the
fallback returning the node itself. -/
def find (position : Nat) (node : YAMLNode) (path : List String) :
    Option YAMLNode × List String :=
  if node.startPosition ≤ position ∧ position ≤ node.endPosition then
    match goChildren position (children node) (pushKey node path) with
    | (some n, p) => (some n, p)
    | (none, p) => (some node, p)
  else (none, path)
termination_by sizeOf node
decreasing_by exact sizeOf_children_lt node

/-- The `for (const child of children)` loop of `find`: returns the first
child result that carries a node, threading the accumulated path. -/
def goChildren (position : Nat) (cs : List YAMLNode) (path : List String) :
    Option YAMLNode × List String :=
  match cs with
  | [] => (none, path)
  | c :: rest =>
    match find position c path with
    | (some n, p) => (some n, p)
    | (none, p) => goChildren position rest p
termination_by sizeOf cs
decreasing_by all_goals (simp; try omega)

end

/-- `findNode(input, position)`: runs `find` with a fresh empty path and
returns the located node (if any) together with the final path state. -/
def findNode (input : YAMLNode) (position : Nat) :
    Option YAMLNode × List String :=
  find position input []

mutual

/-- Inner recursion of `getAllMatchingNodes`: at a truthy-keyed node,
prune when the key fails `path[depth]` (where `*` matches any key), push
`node.value` when `depth` is the final pattern index, otherwise descend
with the depth advanced past keyed nodes only. -/
def collectGo (pattern : List String) (node : YAMLNode) (depth : Nat) :
    List YAMLNode :=
  match truthyKey node with
  | some k =>
    let expectedKey := pattern[depth]?
    if expectedKey ≠ some "*" ∧ expectedKey ≠ some k then []
    else if depth + 1 = pattern.length then
      match node.value with
      | some v => [v]
      | none => []
    else collectList pattern (children node) (depth + 1)
  | none => collectList pattern (children node) depth
termination_by sizeOf node
decreasing_by
  · exact sizeOf_children_lt node
  · exact sizeOf_children_lt node

/-- The `for (const child of children)` loop of `getAllMatchingNodes`,
concatenating the collected nodes in document order. -/
def collectList (pattern : List String) (cs : List YAMLNode) (depth : Nat) :
    List YAMLNode :=
  match cs with
  | [] => []
  | c :: rest => collectGo pattern c depth ++ collectList pattern rest depth
termination_by sizeOf cs
decreasing_by all_goals (simp; try omega)

end

/-- `getAllMatchingNodes(input, path)`: wildcard collector started at depth 0. -/
def getAllMatchingNodes (input : YAMLNode) (path : List String) :
    List YAMLNode :=
  collectGo path input 0

/-! ### The per-line matcher `/^(\s*)(.+)$/gm`

`getNodeCommandRanges` splits a block scalar via
`rawText.matchAll(/^(\s*)(.+)$/gm)`.  The ECMAScript semantics embedded
here: `^`/`$` with flag `m` match at the string boundaries and around the
line terminators `\n`, `\r`, U+2028, U+2029; `\s` is the ECMAScript
whitespace class (which includes the line terminators); `.` matches any
character except a line terminator.  A match at a line start takes the
greedy run of `\s*`, backtracks until `.` can consume one character, then
`.+` greedily runs to the next line terminator (where `$` always holds).
`matchAll` restarts each search at the end of the previous match. -/

/-- ECMAScript `LineTerminator` characters: LF, CR, U+2028, U+2029. -/
def isLineTerminator (c : Char) : Bool :=
  c == '\n' || c == '\r' || c == '\u2028' || c == '\u2029'

/-- ECMAScript `\s` (WhiteSpace union LineTerminator). -/
def jsWhitespace (c : Char) : Bool :=
  c == ' ' || c == '\t' || c == '\n' || c == '\r' ||
  c == '\x0b' || c == '\x0c' || c == '\u00a0' || c == '\u1680' ||
  (0x2000 <= c.toNat && c.toNat <= 0x200a) ||
  c == '\u2028' || c == '\u2029' || c == '\u202f' || c == '\u205f' ||
  c == '\u3000' || c == '\ufeff'

/-- Position `p` holds a character that the regex `.` can match. -/
def okDot (cs : List Char) (p : Nat) : Bool :=
  match cs[p]? with
  | some c => !isLineTerminator c
  | none => false

/-- Multiline `^`: start of string or right after a line terminator. -/
def lineStartAt (cs : List Char) (p : Nat) : Bool :=
  p == 0 ||
    (match cs[p-1]? with
     | some c => isLineTerminator c
     | none => false)

/-- Greedy backtracking of `(\s*)` from length `j` downwards: the largest
`j' ≤ j` at which `.` can consume the next character. -/
def backtrackWs (cs : List Char) (p : Nat) : Nat → Option Nat
  | 0 => if okDot cs p then some 0 else none
  | j + 1 => if okDot cs (p + j + 1) then some (j + 1) else backtrackWs cs p j

/-- One regex match: `index` (`match.index`), `ws` (`match[1].length`) and
`content` (`match[2].length`). -/
structure LineMatch where
  index : Nat
  ws : Nat
  content : Nat
deriving DecidableEq, Repr

/-- Attempt of `/^(\s*)(.+)$/m` at position `p`: `(\s*)` greedily takes
the whitespace run, backtracks, and `(.+)` takes the non-terminator run. -/
def tryMatchAt (cs : List Char) (p : Nat) : Option LineMatch :=
  if lineStartAt cs p then
    match backtrackWs cs p ((cs.drop p).takeWhile jsWhitespace).length with
    | none => none
    | some j =>
      some ⟨p, j, ((cs.drop (p + j)).takeWhile fun c => !isLineTerminator c).length⟩
  else none

/-- First match at a position `≥ cur`; `rem` counts the positions still to
try (`cs.length - cur` at the initial call). -/
def findFirstFrom (cs : List Char) : Nat → Nat → Option LineMatch
  | 0, _ => none
  | rem + 1, cur =>
    match tryMatchAt cs cur with
    | some m => some m
    | none => findFirstFrom cs rem (cur + 1)

/-- Scan loop of `matchAll`: each found match has `content ≥ 1`, so the
scan position strictly advances and `cs.length + 1` rounds exhaust the
string (`scanLines_stable` below proves the fuel choice irrelevant). -/
def scanLines (cs : List Char) : Nat → Nat → List LineMatch
  | 0, _ => []
  | fuel + 1, cur =>
    match findFirstFrom cs (cs.length - cur) cur with
    | none => []
    | some m => m :: scanLines cs fuel (m.index + m.ws + m.content)

/-- `[...rawText.matchAll(/^(\s*)(.+)$/gm)]`. -/
def matchAllLines (cs : List Char) : List LineMatch :=
  scanLines cs (cs.length + 1) 0

/-- A `vscode.Range`, modelled by the character offsets of its two
positions (the source's `end` field is named `stop` here). -/
structure Range where
  start : Nat
  stop : Nat
deriving DecidableEq, Repr

/-- `vscode.Range.contains(position)`: inclusive interval test. -/
def rangeContains (r : Range) (p : Nat) : Bool :=
  decide (r.start ≤ p ∧ p ≤ r.stop)

/-- `rawText.startsWith('|')`. -/
def rawStartsWithPipe (s : String) : Bool :=
  match s.data with
  | c :: _ => c == '|'
  | [] => false

/-- `getNodeCommandRanges(document, value)`: for a block-literal scalar,
drop the header match (`.slice(1)`) and emit one range per remaining
match at `value.startPosition + match.index + match[1].length`, of length
`match[2].length`; otherwise a single range over the whole value span. -/
def getNodeCommandRanges (value : YAMLNode) : List Range :=
  if rawStartsWithPipe value.rawValue then
    ((matchAllLines value.rawValue.data).drop 1).map fun m =>
      ⟨value.startPosition + m.index + m.ws,
       value.startPosition + m.index + m.ws + m.content⟩
  else
    [⟨value.startPosition, value.endPosition⟩]

/-! ### File recognition and the capability-bridge queries -/

/-- A text document: its `fileName` and current full text. -/
structure Document where
  fileName : String
  text : String

/-- `t` occurs in `s` starting exactly at index `i`. -/
def sublistAt (s : List Char) (i : Nat) (t : List Char) : Bool :=
  (s.drop i).take t.length == t

/-- The literal part of the filename pattern. -/
def workflowsLit : List Char := "github/workflows/".data

/-- Truthiness of `fileName.match("(.*)?.github/workflows/(.*).ya?ml")`:
an unanchored search for one `.`-matchable character, the literal
`github/workflows/`, a `.`-matchable run `(.*)`, one `.`-matchable
character, and `yaml` or `yml` (`ya?ml`); nothing anchors the end. -/
def jsRegexWorkflowMatch (s : List Char) : Bool :=
  (List.range (s.length + 1)).any fun i =>
    decide (1 ≤ i) && okDot s (i - 1) && sublistAt s i workflowsLit &&
      ((List.range (s.length + 1)).any fun j =>
        decide (i + 17 ≤ j) && okDot s j &&
          ((List.range' (i + 17) (j - (i + 17))).all fun t => okDot s t) &&
          (sublistAt s (j + 1) "yaml".data || sublistAt s (j + 1) "yml".data))

/-- `getSupportedDocumentAst(document)`: `undefined` unless the file name
matches the workflow regex, else the (possibly failing) YAML parse of the
document text. -/
def getSupportedDocumentAst (loader : String → Option YAMLNode)
    (doc : Document) : Option YAMLNode :=
  if jsRegexWorkflowMatch doc.fileName.data then loader doc.text else none

/-- The fixed enable-path pattern bound by `registerFigSupport`. -/
def enablePath : List String := ["jobs", "*", "steps", "run"]

/-- `path.every((val, i) => ...)` of the `isInRun` check, iterated with
its running index. -/
def everyMatchesEnable : List String → Nat → Bool
  | [], _ => true
  | val :: rest, i =>
    (let expectedVal := enablePath[i]?
     if expectedVal == some "*" then true else expectedVal == some val) &&
    everyMatchesEnable rest (i + 1)

/-- `provideSingleLineRangeFromPosition(document, position)`. -/
def provideSingleLineRangeFromPosition (loader : String → Option YAMLNode)
    (doc : Document) (position : Nat) : Option Range :=
  match getSupportedDocumentAst loader doc with
  | none => none
  | some ast =>
    let offset := position
    let fr := findNode ast offset
    match fr.1.bind YAMLNode.value with
    | none => none
    | some value =>
      if value.startPosition ≤ offset ∧ offset ≤ value.endPosition then
        if enablePath.length == fr.2.length && everyMatchesEnable fr.2 0 then
          (getNodeCommandRanges value).find? fun range => rangeContains range position
        else none
      else none

/-- `getAllSingleLineCommandLocations(document)`: flat-map of the per-node
command ranges over all nodes matching the enable path. -/
def getAllSingleLineCommandLocations (loader : String → Option YAMLNode)
    (doc : Document) : Option (List Range) :=
  match getSupportedDocumentAst loader doc with
  | none => none
  | some ast =>
    some (((getAllMatchingNodes ast enablePath).map getNodeCommandRanges).flatten)

/-! ### The lazy capability bridge as a state machine -/

/-- Process-wide bridge state: the module-level `figSupportRegistered`
flag, plus a count of the `registerLanguageSupport` activations performed
(for stating idempotence). -/
structure BridgeState where
  figSupportRegistered : Bool
  registrationCalls : Nat
deriving DecidableEq, Repr

/-- One focus-change event, abstracted to the two conditions
`registerFigSupport` tests before the flag. -/
structure FocusEvent where
  editorMatchesSelector : Bool
  figExtensionPresent : Bool

/-- One invocation of `registerFigSupport`: early returns when there is no
matching active editor or no fig extension; returns before activation when
the persistent flag is set; otherwise sets the flag and performs the one
registration. -/
def registerFigSupport (ev : FocusEvent) (st : BridgeState) : BridgeState :=
  if !ev.editorMatchesSelector then st
  else if !ev.figExtensionPresent then st
  else if st.figSupportRegistered then st
  else ⟨true, st.registrationCalls + 1⟩

/-- The initial (process start) bridge state: flag unset, no calls. -/
def initialBridgeState : BridgeState := ⟨false, 0⟩

/-- Run a sequence of focus-change events from process start. -/
def runFocusEvents (evs : List FocusEvent) : BridgeState :=
  evs.foldl (fun st ev => registerFigSupport ev st) initialBridgeState

/-! ### Spec-side definitions

The following definitions transcribe the specification's wording (key-path
matching per §4.2, the glob file selector per §6) and are compared with
the definitions transcribed from the source. -/

/-- One pattern segment matches a key: literal, case-sensitive equality,
or the wildcard `*` matching any key. -/
def segMatch (pat k : String) : Bool :=
  pat == "*" || pat == k

/-- Segment-wise key-path match: the candidate path length equals the
pattern length and every segment matches. -/
def keyPathMatches (pattern keys : List String) : Bool :=
  keys.length == pattern.length &&
    (pattern.zip keys).all fun pk => segMatch pk.1 pk.2

/-- Keys of the truthy-keyed nodes along a chain, root first. -/
def chainKeys (l : List YAMLNode) : List String :=
  l.filterMap truthyKey

mutual

/-- Spec-side collector: depth-first traversal returning the value-node of
every truthy-keyed node whose accumulated key-path (`ancestors` plus its
own truthy key, if any) matches the pattern, in document order, without
descending into a matched node's subtree. -/
def collectBySpec (pattern : List String) (node : YAMLNode)
    (ancestors : List String) : List YAMLNode :=
  if (truthyKey node).isSome ∧
      keyPathMatches pattern (ancestors ++ (truthyKey node).toList) = true then
    node.value.toList
  else
    collectBySpecList pattern (children node)
      (ancestors ++ (truthyKey node).toList)
termination_by sizeOf node
decreasing_by exact sizeOf_children_lt node

/-- Depth-first traversal of a child list for `collectBySpec`. -/
def collectBySpecList (pattern : List String) (cs : List YAMLNode)
    (keys : List String) : List YAMLNode :=
  match cs with
  | [] => []
  | c :: rest =>
    collectBySpec pattern c keys ++ collectBySpecList pattern rest keys
termination_by sizeOf cs
decreasing_by all_goals (simp; try omega)

end

/-- Disjoint inclusive spans. -/
def spanDisjoint (a b : YAMLNode) : Prop :=
  a.endPosition < b.startPosition ∨ b.endPosition < a.startPosition

/-- Well-formed spans: every child's span lies inside its parent's span,
and sibling spans are pairwise disjoint. -/
def wfSpans (n : YAMLNode) : Prop :=
  (∀ c ∈ children n,
      n.startPosition ≤ c.startPosition ∧ c.endPosition ≤ n.endPosition ∧
      wfSpans c) ∧
  (children n).Pairwise spanDisjoint
termination_by sizeOf n
decreasing_by exact sizeOf_mem_children (by assumption)

/-- Sibling spans are pairwise disjoint, throughout the tree. -/
def siblingsDisjoint (n : YAMLNode) : Prop :=
  (children n).Pairwise spanDisjoint ∧ ∀ c ∈ children n, siblingsDisjoint c
termination_by sizeOf n
decreasing_by exact sizeOf_mem_children (by assumption)

/-- A descent chain: `Descend n cs m` holds when `cs` lists the successive
nodes stepped through from `n` (exclusive) down to `m` (inclusive, unless
`cs = []` and `m = n`), each a child of the previous one. -/
inductive Descend : YAMLNode → List YAMLNode → YAMLNode → Prop where
  | refl (n : YAMLNode) : Descend n [] n
  | step {n c m : YAMLNode} {rest : List YAMLNode} (hc : c ∈ children n)
      (h : Descend c rest m) : Descend n (c :: rest) m

/-- Split a character list at a separator (path components). -/
def splitOnChar (sep : Char) : List Char → List (List Char)
  | [] => [[]]
  | c :: rest =>
    if c == sep then [] :: splitOnChar sep rest
    else
      match splitOnChar sep rest with
      | [] => [[c]]
      | h :: t => (c :: h) :: t

/-- Rejoin the pieces of `splitOnChar` with the separator. -/
def joinWithChar (sep : Char) : List (List Char) → List Char
  | [] => []
  | [x] => x
  | x :: xs => x ++ sep :: joinWithChar sep xs

/-- `l` ends with `t`. -/
def endsWithList (l t : List Char) : Bool :=
  l.reverse.take t.length == t.reverse

/-- Modelled from the spec: the document-selector glob
`**/.github/workflows/*.{yaml,yml}` is evaluated by the editor host, which
is not part of this repository.  Per the spec's file-selector rule it
recognizes any file directly inside a `.github/workflows/` directory whose
name matches `*.{yaml,yml}` (a `*` never crosses a `/`). -/
def matchesWorkflowGlob (s : List Char) : Bool :=
  match (splitOnChar '/' s).reverse with
  | f :: w :: g :: _ =>
    g == ".github".data && w == "workflows".data &&
      (endsWithList f ".yaml".data || endsWithList f ".yml".data)
  | _ => false

/-! ### Helper lemmas and claim theorems -/

theorem registerFigSupport_preserves (ev : FocusEvent) (st : BridgeState)
    (h : st.registrationCalls ≤ 1 ∧
      (st.figSupportRegistered = false → st.registrationCalls = 0)) :
    (registerFigSupport ev st).registrationCalls ≤ 1 ∧
      ((registerFigSupport ev st).figSupportRegistered = false →
        (registerFigSupport ev st).registrationCalls = 0) := by
  unfold registerFigSupport
  split
  · exact h
  · split
    · exact h
    · split
      · exact h
      · next hflag =>
        have : st.figSupportRegistered = false := by
          revert hflag; cases st.figSupportRegistered <;> simp
        constructor
        · simp [h.2 this]
        · intro hcontra; simp at hcontra

theorem foldFocus_inv (evs : List FocusEvent) (st : BridgeState)
    (h : st.registrationCalls ≤ 1 ∧
      (st.figSupportRegistered = false → st.registrationCalls = 0)) :
    (evs.foldl (fun s e => registerFigSupport e s) st).registrationCalls ≤ 1 ∧
      ((evs.foldl (fun s e => registerFigSupport e s) st).figSupportRegistered
          = false →
        (evs.foldl (fun s e => registerFigSupport e s) st).registrationCalls
          = 0) := by
  induction evs generalizing st with
  | nil => exact h
  | cons e rest ih =>
    simpa using ih (registerFigSupport e st) (registerFigSupport_preserves e st h)

/-- Claim C8: under any sequence of focus-change events the bridge
performs at most one registration call (the Unregistered → Registered
transition happens at most once), and once the persistent flag is set,
any invocation of `registerFigSupport` is the identity — it returns
before activation, so no duplicate registration call is performed and
the state never reverts. -/
theorem C8_registerFigSupport_once (evs : List FocusEvent) :
    (runFocusEvents evs).registrationCalls ≤ 1 ∧
      (∀ (ev : FocusEvent) (st : BridgeState),
        st.figSupportRegistered = true → registerFigSupport ev st = st) := by
  constructor
  · exact (foldFocus_inv evs initialBridgeState (by simp [initialBridgeState])).1
  · intro ev st hflag
    unfold registerFigSupport
    split
    · rfl
    · split
      · rfl
      · simp [hflag]

/-- Witness for C8 at a concrete event sequence and a concrete
already-registered state. -/
theorem C8_registerFigSupport_once_witness :
    (runFocusEvents [⟨true, true⟩, ⟨true, true⟩]).registrationCalls ≤ 1 ∧
      registerFigSupport ⟨true, true⟩ ⟨true, 1⟩ = ⟨true, 1⟩ :=
  ⟨(C8_registerFigSupport_once [⟨true, true⟩, ⟨true, true⟩]).1,
   (C8_registerFigSupport_once []).2 ⟨true, true⟩ ⟨true, 1⟩ rfl⟩

/-- Claim C9: both bridge queries return `none` (and, being total
functions, never raise) whenever the document's file name fails the
workflow-file recognition or the YAML loader cannot produce an AST. -/
theorem C9_queries_absent_on_failure (loader : String → Option YAMLNode)
    (doc : Document) (position : Nat)
    (h : jsRegexWorkflowMatch doc.fileName.data = false ∨
      loader doc.text = none) :
    provideSingleLineRangeFromPosition loader doc position = none ∧
      getAllSingleLineCommandLocations loader doc = none := by
  have hast : getSupportedDocumentAst loader doc = none := by
    unfold getSupportedDocumentAst
    rcases h with h | h
    · simp [h]
    · simp [h]
  exact ⟨by simp [provideSingleLineRangeFromPosition, hast],
    by simp [getAllSingleLineCommandLocations, hast]⟩

/-- Witness for C9: a non-workflow file name with a failing loader. -/
theorem C9_queries_absent_on_failure_witness :
    provideSingleLineRangeFromPosition (fun _ => none) ⟨"a.txt", ""⟩ 0 = none ∧
      getAllSingleLineCommandLocations (fun _ => none) ⟨"a.txt", ""⟩ = none :=
  C9_queries_absent_on_failure (fun _ => none) ⟨"a.txt", ""⟩ 0 (Or.inr rfl)

theorem everyMatchesEnable_eq_zip (keys : List String) :
    ∀ i, i + keys.length ≤ enablePath.length →
      everyMatchesEnable keys i =
        ((enablePath.drop i).zip keys).all fun pk => segMatch pk.1 pk.2 := by
  induction keys with
  | nil => intro i h; simp [everyMatchesEnable]
  | cons val rest ih =>
    intro i h
    simp only [List.length_cons] at h
    have hi : i < enablePath.length := by omega
    rw [everyMatchesEnable, List.drop_eq_getElem_cons hi]
    simp only [List.zip_cons_cons, List.all_cons]
    have h1 : (let expectedVal := enablePath[i]?;
        if expectedVal == some "*" then true else expectedVal == some val) =
        segMatch (enablePath.get ⟨i, hi⟩) val := by
      have hsome : enablePath[i]? = some (enablePath.get ⟨i, hi⟩) := by
        simp [List.getElem?_eq_getElem hi]
      rw [hsome]
      by_cases hstar : enablePath.get ⟨i, hi⟩ = "*"
      · simp [segMatch, hstar]; rfl
      · simp [segMatch, hstar]; rfl
    have hget : enablePath[i] = enablePath.get ⟨i, hi⟩ := rfl
    rw [hget, h1, ih (i + 1) (by omega)]

/-- The `isInRun` test of `provideSingleLineRangeFromPosition` is exactly
the segment-wise key-path match against the enable path. -/
theorem isInRun_eq_keyPathMatches (path : List String) :
    (enablePath.length == path.length && everyMatchesEnable path 0) =
      keyPathMatches enablePath path := by
  unfold keyPathMatches
  by_cases hl : enablePath.length = path.length
  · have h0 := everyMatchesEnable_eq_zip path 0 (by omega)
    simp only [List.drop_zero] at h0
    simp [hl, h0]
  · have h1 : (enablePath.length == path.length) = false := by
      simp [hl]
    have h2 : (path.length == enablePath.length) = false := by
      simp; omega
    simp [h1, h2]

/-- Claim C3: the point query returns a range exactly when an AST is
produced, the located node's path equals the enable path segment-wise,
the queried offset falls inside the located node's value span, and the
position lies inside one of the decomposed command-line ranges of that
value; in every other case it returns `none`. -/
theorem C3_provideSingleLineRange_iff (loader : String → Option YAMLNode)
    (doc : Document) (position : Nat) :
    (provideSingleLineRangeFromPosition loader doc position).isSome = true ↔
      ∃ ast, getSupportedDocumentAst loader doc = some ast ∧
        ∃ value, (findNode ast position).1.bind YAMLNode.value = some value ∧
          keyPathMatches enablePath (findNode ast position).2 = true ∧
          value.startPosition ≤ position ∧ position ≤ value.endPosition ∧
          ∃ r ∈ getNodeCommandRanges value, rangeContains r position = true := by
  unfold provideSingleLineRangeFromPosition
  cases hast : getSupportedDocumentAst loader doc with
  | none => simp
  | some ast =>
    simp only [Option.some.injEq, exists_eq_left']
    cases hv : (findNode ast position).1.bind YAMLNode.value with
    | none => simp
    | some value =>
      simp only [Option.some.injEq, exists_eq_left']
      rw [isInRun_eq_keyPathMatches]
      by_cases hspan : value.startPosition ≤ position ∧ position ≤ value.endPosition
      · rw [if_pos hspan]
        cases hrun : keyPathMatches enablePath (findNode ast position).2 with
        | false => simp [hrun]
        | true =>
          simp only [if_pos rfl, List.find?_isSome]
          simp [hspan]
      · rw [if_neg hspan]
        simp only [Option.isSome_none, Bool.false_eq_true, false_iff]
        intro hcontra
        exact hspan ⟨hcontra.2.1, hcontra.2.2.1⟩

/-- Claim C4: when an AST is produced, `getAllSingleLineCommandLocations`
returns exactly the flattened concatenation of the per-node command-line
ranges of the collected nodes (per-node document order, then per-line
order), and its length is the sum of the per-node counts. -/
theorem C4_getAllSingleLineCommandLocations (loader : String → Option YAMLNode)
    (doc : Document) (ast : YAMLNode)
    (h : getSupportedDocumentAst loader doc = some ast) :
    getAllSingleLineCommandLocations loader doc =
      some (((getAllMatchingNodes ast enablePath).map getNodeCommandRanges).flatten) ∧
      (((getAllMatchingNodes ast enablePath).map getNodeCommandRanges).flatten).length =
        ((getAllMatchingNodes ast enablePath).map
          fun v => (getNodeCommandRanges v).length).sum := by
  refine ⟨by simp [getAllSingleLineCommandLocations, h], ?_⟩
  rw [List.length_flatten, List.map_map]
  rfl

/-- Witness for C4: a workflow file name with a loader producing a node. -/
theorem C4_getAllSingleLineCommandLocations_witness :
    getAllSingleLineCommandLocations
        (fun _ => some (.mk 0 5 none none none none "x"))
        ⟨"/r/.github/workflows/ci.yml", "x"⟩ =
      some (((getAllMatchingNodes (.mk 0 5 none none none none "x") enablePath).map
        getNodeCommandRanges).flatten) :=
  (C4_getAllSingleLineCommandLocations
    (fun _ => some (.mk 0 5 none none none none "x"))
    ⟨"/r/.github/workflows/ci.yml", "x"⟩ (.mk 0 5 none none none none "x")
    (by unfold getSupportedDocumentAst
        rw [if_pos]
        decide)).1

theorem backtrackWs_okDot {cs : List Char} {p : Nat} :
    ∀ {j j' : Nat}, backtrackWs cs p j = some j' → okDot cs (p + j') = true := by
  intro j
  induction j with
  | zero =>
    intro j' h
    unfold backtrackWs at h
    split at h
    · next hok => cases h; simpa using hok
    · cases h
  | succ j ih =>
    intro j' h
    unfold backtrackWs at h
    split at h
    · next hok => cases h; simpa [Nat.add_assoc] using hok
    · exact ih h

theorem okDot_takeWhile_pos {cs : List Char} {q : Nat}
    (h : okDot cs q = true) :
    1 ≤ ((cs.drop q).takeWhile fun c => !isLineTerminator c).length := by
  unfold okDot at h
  cases hget : cs[q]? with
  | none => rw [hget] at h; cases h
  | some c =>
    rw [hget] at h
    have hhead : (cs.drop q).head? = some c := by
      rw [List.head?_drop]; exact hget
    cases hdrop : cs.drop q with
    | nil => rw [hdrop] at hhead; cases hhead
    | cons c0 t =>
      rw [hdrop] at hhead
      cases hhead
      rw [List.takeWhile_cons, if_pos h]
      simp

theorem tryMatchAt_spec {cs : List Char} {p : Nat} {m : LineMatch}
    (h : tryMatchAt cs p = some m) : 1 ≤ m.content ∧ m.index = p := by
  unfold tryMatchAt at h
  split at h
  · split at h
    · cases h
    · next j hb =>
      cases h
      exact ⟨okDot_takeWhile_pos (backtrackWs_okDot hb), rfl⟩
  · cases h

theorem findFirstFrom_spec {cs : List Char} :
    ∀ {rem cur : Nat} {m : LineMatch}, findFirstFrom cs rem cur = some m →
      1 ≤ m.content ∧ cur ≤ m.index := by
  intro rem
  induction rem with
  | zero => intro cur m h; cases h
  | succ rem ih =>
    intro cur m h
    unfold findFirstFrom at h
    split at h
    · cases h
      next htry =>
        obtain ⟨h1, h2⟩ := tryMatchAt_spec htry
        exact ⟨h1, by omega⟩
    · obtain ⟨h1, h2⟩ := ih h
      exact ⟨h1, by omega⟩

theorem scanLines_content_pos {cs : List Char} :
    ∀ {fuel cur : Nat} {m : LineMatch}, m ∈ scanLines cs fuel cur →
      1 ≤ m.content := by
  intro fuel
  induction fuel with
  | zero => intro cur m h; simp [scanLines] at h
  | succ fuel ih =>
    intro cur m h
    unfold scanLines at h
    split at h
    · simp at h
    · next m' hfind =>
      rcases List.mem_cons.mp h with h | h
      · cases h; exact (findFirstFrom_spec hfind).1
      · exact ih h

theorem matchAllLines_content_pos {cs : List Char} {m : LineMatch}
    (h : m ∈ matchAllLines cs) : 1 ≤ m.content :=
  scanLines_content_pos h

theorem scanLines_stable (cs : List Char) :
    ∀ (d fuel fuel' cur : Nat), cs.length ≤ cur + d →
      d < fuel → d < fuel' →
      scanLines cs fuel cur = scanLines cs fuel' cur := by
  intro d
  induction d with
  | zero =>
    intro fuel fuel' cur hle hf hf'
    cases fuel with
    | zero => omega
    | succ f =>
      cases fuel' with
      | zero => omega
      | succ f' =>
        rw [scanLines, scanLines,
          show cs.length - cur = 0 by omega]
        rfl
  | succ d ihd =>
    intro fuel fuel' cur hle hf hf'
    cases fuel with
    | zero => omega
    | succ f =>
      cases fuel' with
      | zero => omega
      | succ f' =>
        rw [scanLines, scanLines]
        cases hff : findFirstFrom cs (cs.length - cur) cur with
        | none => rfl
        | some m =>
          obtain ⟨hcont, hidx⟩ := findFirstFrom_spec hff
          show m :: scanLines cs f (m.index + m.ws + m.content) =
            m :: scanLines cs f' (m.index + m.ws + m.content)
          rw [ihd f f' (m.index + m.ws + m.content)
            (by omega) (by omega) (by omega)]

/-- The fuel `cs.length + 1` in `matchAllLines` truncates nothing: any
sufficient fuel yields the same match list. -/
theorem matchAllLines_fuel_irrelevant (cs : List Char) (fuel : Nat)
    (h : cs.length + 1 ≤ fuel) :
    scanLines cs fuel 0 = matchAllLines cs := by
  unfold matchAllLines
  exact scanLines_stable cs cs.length fuel (cs.length + 1) 0
    (by omega) (by omega) (by omega)

/-- Claim C5: for a block-literal scalar the decomposer discards the first
captured line and emits, per remaining line, the range from
`startPosition + match.index + match[1].length` of length
`match[2].length`; on the raw value `"|\n  echo a\n  echo b\n"` this is
exactly two ranges covering exactly `echo a` and `echo b` (indentation
excluded); a raw value not starting with `|` yields the single
whole-value range. -/
theorem C5_getNodeCommandRanges (v : YAMLNode) :
    (rawStartsWithPipe v.rawValue = false →
      getNodeCommandRanges v = [⟨v.startPosition, v.endPosition⟩]) ∧
    (rawStartsWithPipe v.rawValue = true →
      getNodeCommandRanges v =
        ((matchAllLines v.rawValue.data).drop 1).map fun m =>
          ⟨v.startPosition + m.index + m.ws,
           v.startPosition + m.index + m.ws + m.content⟩) ∧
    (v.rawValue = "|\n  echo a\n  echo b\n" →
      getNodeCommandRanges v =
        [⟨v.startPosition + 4, v.startPosition + 10⟩,
         ⟨v.startPosition + 13, v.startPosition + 19⟩] ∧
      (v.rawValue.data.drop 4).take 6 = "echo a".data ∧
      (v.rawValue.data.drop 13).take 6 = "echo b".data) := by
  refine ⟨fun h => by rw [getNodeCommandRanges, if_neg (by simp [h])],
    fun h => by rw [getNodeCommandRanges, if_pos (by simp [h])], fun h => ?_⟩
  have hm : matchAllLines "|\n  echo a\n  echo b\n".data =
      [⟨0, 0, 1⟩, ⟨2, 2, 6⟩, ⟨11, 2, 6⟩] := by decide
  refine ⟨?_, by rw [h]; decide, by rw [h]; decide⟩
  rw [getNodeCommandRanges, if_pos (by rw [h]; decide), h, hm]
  simp [List.drop, List.map]
  try omega

/-- Witness for C5 at a non-block scalar and at the block-literal scalar
of the claim. -/
theorem C5_getNodeCommandRanges_witness :
    getNodeCommandRanges (.mk 5 12 none none none none "echo hi") =
      [⟨5, 12⟩] ∧
    getNodeCommandRanges
        (.mk 7 27 none none none none "|\n  echo a\n  echo b\n") =
      [⟨11, 17⟩, ⟨20, 26⟩] := by
  constructor
  · exact (C5_getNodeCommandRanges (.mk 5 12 none none none none "echo hi")).1
      (by decide)
  · have h := ((C5_getNodeCommandRanges
      (.mk 7 27 none none none none "|\n  echo a\n  echo b\n")).2.2 rfl).1
    simpa using h

/-- Counterexample to claim C6: in the block scalar
`"|\n  a\n  \n  b\n"` the third line consists only of whitespace, yet the
decomposer emits no zero-length range there: since `(.+)` requires at
least one captured character, the whitespace-only line is absorbed into
the leading `(\s*)` group of the following line's match (every captured
content group has length 1 here, and both emitted ranges have positive
length). -/
theorem C6_counterexample :
    matchAllLines "|\n  a\n  \n  b\n".data =
      [⟨0, 0, 1⟩, ⟨2, 2, 1⟩, ⟨6, 5, 1⟩] ∧
    getNodeCommandRanges (.mk 0 13 none none none none "|\n  a\n  \n  b\n") =
      [⟨4, 5⟩, ⟨11, 12⟩] := by decide

/-- Claim C6 amended: a whitespace-only line never yields a zero-length
range.  The per-line regex requires a nonempty captured content group, so
every emitted range of a block-literal scalar has positive length; a
whitespace-only line followed by a later content line is absorbed into
that match's leading-whitespace group, and a trailing whitespace-only
line is matched with its final whitespace character as the content group,
yielding a range of length one. -/
theorem C6_amended (v : YAMLNode) :
    (rawStartsWithPipe v.rawValue = true →
      ∀ r ∈ getNodeCommandRanges v, r.start < r.stop) ∧
    (v.rawValue = "|\n a\n  \n" →
      getNodeCommandRanges v =
        [⟨v.startPosition + 3, v.startPosition + 4⟩,
         ⟨v.startPosition + 6, v.startPosition + 7⟩]) := by
  constructor
  · intro h r hr
    rw [getNodeCommandRanges, if_pos (by simp [h])] at hr
    obtain ⟨m, hm, hrm⟩ := List.mem_map.mp hr
    have hpos : 1 ≤ m.content :=
      matchAllLines_content_pos (List.mem_of_mem_drop hm)
    rw [← hrm]
    simp
    omega
  · intro h
    have hm : matchAllLines "|\n a\n  \n".data =
        [⟨0, 0, 1⟩, ⟨2, 1, 1⟩, ⟨5, 1, 1⟩] := by decide
    rw [getNodeCommandRanges, if_pos (by rw [h]; decide), h, hm]
    simp [List.drop, List.map]
    try omega

/-- Witness for C6's amended claim at the trailing-blank-line scalar. -/
theorem C6_amended_witness :
    getNodeCommandRanges (.mk 0 8 none none none none "|\n a\n  \n") =
      [⟨3, 4⟩, ⟨6, 7⟩] := by
  have h := (C6_amended (.mk 0 8 none none none none "|\n a\n  \n")).2 rfl
  simpa using h

/-! ### Claim C1: the collector against the spec-side collector -/

theorem YAMLNode.sizeOf_pos (n : YAMLNode) : 0 < sizeOf n := by
  cases n; simp_arith

/-- The accumulated key prefix is still extendable to a full match:
it is no longer than the pattern and matches it segment-wise so far. -/
def prefixOk (pattern acc : List String) : Prop :=
  acc.length ≤ pattern.length ∧
    ∀ i (h1 : i < acc.length) (h2 : i < pattern.length),
      segMatch (pattern.get ⟨i, h2⟩) (acc.get ⟨i, h1⟩) = true

theorem keyPathMatches_iff (pattern keys : List String) :
    keyPathMatches pattern keys = true ↔
      keys.length = pattern.length ∧
        ∀ i (h1 : i < keys.length) (h2 : i < pattern.length),
          segMatch (pattern.get ⟨i, h2⟩) (keys.get ⟨i, h1⟩) = true := by
  unfold keyPathMatches
  rw [Bool.and_eq_true, List.all_eq_true, beq_iff_eq]
  constructor
  · rintro ⟨hl, hall⟩
    refine ⟨hl, fun i h1 h2 => ?_⟩
    have hz : i < (pattern.zip keys).length := by
      rw [List.length_zip]; omega
    have := hall ((pattern.zip keys).get ⟨i, hz⟩) (List.get_mem _ _ _)
    simpa [List.getElem_zip] using this
  · rintro ⟨hl, hidx⟩
    refine ⟨hl, fun pk hpk => ?_⟩
    obtain ⟨i, hi, hget⟩ := List.mem_iff_getElem.mp hpk
    have hz := hi
    rw [List.length_zip] at hz
    rw [List.getElem_zip] at hget
    have := hidx i (by omega) (by omega)
    rw [← hget]
    simpa using this

theorem prefixOk_of_append {pattern acc l : List String}
    (h : prefixOk pattern (acc ++ l)) : prefixOk pattern acc := by
  obtain ⟨hl, hidx⟩ := h
  rw [List.length_append] at hl
  refine ⟨by omega, fun i h1 h2 => ?_⟩
  have := hidx i (by rw [List.length_append]; omega) h2
  rwa [show (acc ++ l).get ⟨i, by rw [List.length_append]; omega⟩ =
    acc.get ⟨i, h1⟩ from List.getElem_append_left h1] at this

theorem keyPathMatches_imp_prefixOk {pattern keys : List String}
    (h : keyPathMatches pattern keys = true) : prefixOk pattern keys := by
  obtain ⟨hl, hidx⟩ := (keyPathMatches_iff pattern keys).mp h
  exact ⟨by omega, hidx⟩

theorem get_append_singleton (acc : List String) (kstr : String)
    (h : acc.length < (acc ++ [kstr]).length) :
    (acc ++ [kstr]).get ⟨acc.length, h⟩ = kstr := by
  rw [show (acc ++ [kstr]).get ⟨acc.length, h⟩ =
    (acc ++ [kstr])[acc.length] from rfl,
    List.getElem_append_right (Nat.le_refl _)]
  simp

theorem collectGo_eq_unkeyed (pattern : List String) (n : YAMLNode)
    (depth : Nat) (htk : truthyKey n = none) :
    collectGo pattern n depth = collectList pattern (children n) depth := by
  rw [collectGo]; simp only [htk]

theorem collectGo_eq_prune (pattern : List String) (n : YAMLNode)
    (depth : Nat) (kstr : String) (htk : truthyKey n = some kstr)
    (hp : pattern[depth]? ≠ some "*" ∧ pattern[depth]? ≠ some kstr) :
    collectGo pattern n depth = [] := by
  rw [collectGo]; simp only [htk]; rw [if_pos hp]

theorem collectGo_eq_final (pattern : List String) (n : YAMLNode)
    (depth : Nat) (kstr : String) (htk : truthyKey n = some kstr)
    (hp : ¬(pattern[depth]? ≠ some "*" ∧ pattern[depth]? ≠ some kstr))
    (hfin : depth + 1 = pattern.length) :
    collectGo pattern n depth = n.value.toList := by
  rw [collectGo]; simp only [htk]; rw [if_neg hp, if_pos hfin]
  cases hv : n.value <;> simp [hv]

theorem collectGo_eq_descend (pattern : List String) (n : YAMLNode)
    (depth : Nat) (kstr : String) (htk : truthyKey n = some kstr)
    (hp : ¬(pattern[depth]? ≠ some "*" ∧ pattern[depth]? ≠ some kstr))
    (hfin : ¬(depth + 1 = pattern.length)) :
    collectGo pattern n depth = collectList pattern (children n) (depth + 1) := by
  rw [collectGo]; simp only [htk]; rw [if_neg hp, if_neg hfin]

theorem collectBySpec_eq_hit (pattern : List String) (n : YAMLNode)
    (acc : List String)
    (hcond : (truthyKey n).isSome ∧
      keyPathMatches pattern (acc ++ (truthyKey n).toList) = true) :
    collectBySpec pattern n acc = n.value.toList := by
  rw [collectBySpec, if_pos hcond]

theorem collectBySpec_eq_miss (pattern : List String) (n : YAMLNode)
    (acc : List String)
    (hcond : ¬((truthyKey n).isSome ∧
      keyPathMatches pattern (acc ++ (truthyKey n).toList) = true)) :
    collectBySpec pattern n acc =
      collectBySpecList pattern (children n)
        (acc ++ (truthyKey n).toList) := by
  rw [collectBySpec, if_neg hcond]

theorem collectBySpecList_nil {pattern keys : List String}
    {cs : List YAMLNode} (h : ∀ c ∈ cs, collectBySpec pattern c keys = []) :
    collectBySpecList pattern cs keys = [] := by
  induction cs with
  | nil => rw [collectBySpecList]
  | cons c rest ih =>
    rw [collectBySpecList, h c (by simp), ih fun c' hc' => h c' (by simp [hc'])]
    rfl

theorem collectBySpecList_congr {pattern keys : List String} {depth : Nat}
    {cs : List YAMLNode}
    (h : ∀ c ∈ cs, collectGo pattern c depth = collectBySpec pattern c keys) :
    collectList pattern cs depth = collectBySpecList pattern cs keys := by
  induction cs with
  | nil => rw [collectList, collectBySpecList]
  | cons c rest ih =>
    rw [collectList, collectBySpecList, h c (by simp),
      ih fun c' hc' => h c' (by simp [hc'])]

theorem collectBySpec_dead (pattern : List String) :
    ∀ (k : Nat) (n : YAMLNode) (acc : List String), sizeOf n ≤ k →
      ¬ prefixOk pattern acc → collectBySpec pattern n acc = [] := by
  intro k
  induction k with
  | zero =>
    intro n acc hk _
    exact absurd hk (by have := YAMLNode.sizeOf_pos n; omega)
  | succ k ih =>
    intro n acc hk hdead
    have hkeys : ¬ prefixOk pattern (acc ++ (truthyKey n).toList) :=
      fun hpf => hdead (prefixOk_of_append hpf)
    rw [collectBySpec_eq_miss pattern n acc
      (fun hcond => hkeys (keyPathMatches_imp_prefixOk hcond.2))]
    exact collectBySpecList_nil fun c hc =>
      ih c _ (by have := sizeOf_mem_children hc; omega) hkeys

theorem collectGo_eq_spec (pattern : List String) :
    ∀ (k : Nat) (n : YAMLNode) (acc : List String),
      sizeOf n ≤ k → prefixOk pattern acc →
      collectGo pattern n acc.length = collectBySpec pattern n acc := by
  intro k
  induction k with
  | zero =>
    intro n acc hk _
    exact absurd hk (by have := YAMLNode.sizeOf_pos n; omega)
  | succ k ih =>
    intro n acc hk hpf
    cases htk : truthyKey n with
    | none =>
      rw [collectGo_eq_unkeyed pattern n acc.length htk,
        collectBySpec_eq_miss pattern n acc (by simp [htk])]
      simp only [htk, Option.toList_none, List.append_nil]
      exact collectBySpecList_congr fun c hc =>
        ih c acc (by have := sizeOf_mem_children hc; omega) hpf
    | some kstr =>
      have htl : (truthyKey n).toList = [kstr] := by simp [htk]
      by_cases hprune : pattern[acc.length]? ≠ some "*" ∧
          pattern[acc.length]? ≠ some kstr
      · rw [collectGo_eq_prune pattern n acc.length kstr htk hprune]
        have hbad : ¬ prefixOk pattern (acc ++ [kstr]) := by
          rintro ⟨hl, hidx⟩
          rw [List.length_append, List.length_singleton] at hl
          have hd : acc.length < pattern.length := by omega
          have hone := hidx acc.length
            (by rw [List.length_append, List.length_singleton]; omega) hd
          rw [get_append_singleton] at hone
          unfold segMatch at hone
          rw [Bool.or_eq_true, beq_iff_eq, beq_iff_eq] at hone
          have hsome : pattern[acc.length]? =
              some (pattern.get ⟨acc.length, hd⟩) :=
            List.getElem?_eq_getElem hd
          rcases hone with hstar | hkey
          · exact hprune.1 (by rw [hsome, hstar])
          · exact hprune.2 (by rw [hsome, hkey])
        rw [collectBySpec_eq_miss pattern n acc (fun hcond => hbad
          (htl ▸ keyPathMatches_imp_prefixOk hcond.2))]
        rw [htl]
        exact (collectBySpecList_nil fun c hc =>
          collectBySpec_dead pattern (sizeOf c) c _ (Nat.le_refl _) hbad).symm
      · have hmatch : pattern[acc.length]? = some "*" ∨
            pattern[acc.length]? = some kstr := by
          by_cases h1 : pattern[acc.length]? = some "*"
          · exact Or.inl h1
          · push_neg at hprune
            exact Or.inr (hprune h1)
        have hd : acc.length < pattern.length := by
          rcases hmatch with h1 | h1 <;> exact (List.getElem?_eq_some.mp h1).1
        have hsome : pattern[acc.length]? =
            some (pattern.get ⟨acc.length, hd⟩) :=
          List.getElem?_eq_getElem hd
        have hseg : segMatch (pattern.get ⟨acc.length, hd⟩) kstr = true := by
          unfold segMatch
          rw [Bool.or_eq_true, beq_iff_eq, beq_iff_eq]
          rcases hmatch with h1 | h1
          · exact Or.inl (Option.some.inj (hsome.symm.trans h1))
          · exact Or.inr (Option.some.inj (hsome.symm.trans h1))
        have hpf1 : prefixOk pattern (acc ++ [kstr]) := by
          refine ⟨by rw [List.length_append, List.length_singleton]; omega,
            fun i h1 h2 => ?_⟩
          rw [List.length_append, List.length_singleton] at h1
          by_cases hik : i < acc.length
          · rw [show (acc ++ [kstr]).get ⟨i, by
                rw [List.length_append, List.length_singleton]; omega⟩ =
              acc.get ⟨i, hik⟩ from List.getElem_append_left hik]
            exact hpf.2 i hik h2
          · have hieq : i = acc.length := by omega
            subst hieq
            rw [get_append_singleton]
            exact hseg
        by_cases hfin : acc.length + 1 = pattern.length
        · rw [collectGo_eq_final pattern n acc.length kstr htk hprune hfin]
          have hkpm : keyPathMatches pattern (acc ++ [kstr]) = true := by
            rw [keyPathMatches_iff]
            exact ⟨by rw [List.length_append, List.length_singleton]; omega,
              hpf1.2⟩
          rw [collectBySpec_eq_hit pattern n acc
            ⟨by simp [htk], by rw [htl]; exact hkpm⟩]
        · rw [collectGo_eq_descend pattern n acc.length kstr htk hprune hfin]
          have hkpmf : keyPathMatches pattern (acc ++ [kstr]) = false := by
            cases hkb : keyPathMatches pattern (acc ++ [kstr]) with
            | false => rfl
            | true =>
              obtain ⟨hl, _⟩ := (keyPathMatches_iff _ _).mp hkb
              rw [List.length_append, List.length_singleton] at hl
              omega
          rw [collectBySpec_eq_miss pattern n acc (by
            rintro ⟨_, h2c⟩
            rw [htl, hkpmf] at h2c
            cases h2c)]
          rw [htl]
          apply collectBySpecList_congr
          intro c hc
          have hlen1 : (acc ++ [kstr]).length = acc.length + 1 := by
            rw [List.length_append, List.length_singleton]
          rw [show acc.length + 1 = (acc ++ [kstr]).length from hlen1.symm]
          exact ih c (acc ++ [kstr])
            (by have := sizeOf_mem_children hc; omega) hpf1

/-- Claim C1: `getAllMatchingNodes` returns exactly the value-nodes of
the truthy-keyed nodes whose key-path matches the pattern segment-wise
(equal length; literal case-sensitive equality or the wildcard `*` per
segment), in depth-first document order, without descending into the
subtree of a node matched at the pattern's final segment — i.e. it
coincides with the spec-side collector `collectBySpec`. -/
theorem C1_getAllMatchingNodes_eq_spec (input : YAMLNode)
    (path : List String) :
    getAllMatchingNodes input path = collectBySpec path input [] := by
  unfold getAllMatchingNodes
  exact collectGo_eq_spec path (sizeOf input) input [] (Nat.le_refl _)
    ⟨by simp, fun i h1 _ => absurd h1 (by simp)⟩


/-! ### Claims C2 and C10: the locator -/

theorem pushKey_eq (n : YAMLNode) (p : List String) :
    pushKey n p = p ++ (truthyKey n).toList := by
  unfold pushKey
  cases truthyKey n <;> simp

theorem chainKeys_nil : chainKeys [] = [] := rfl

theorem chainKeys_cons (n : YAMLNode) (l : List YAMLNode) :
    chainKeys (n :: l) = (truthyKey n).toList ++ chainKeys l := by
  unfold chainKeys
  rw [List.filterMap_cons]
  cases truthyKey n <;> simp

theorem find_out (position : Nat) (n : YAMLNode) (p : List String)
    (h : ¬(n.startPosition ≤ position ∧ position ≤ n.endPosition)) :
    find position n p = (none, p) := by
  rw [find, if_neg h]

theorem find_in (position : Nat) (n : YAMLNode) (p : List String)
    (h : n.startPosition ≤ position ∧ position ≤ n.endPosition) :
    find position n p =
      (match goChildren position (children n) (pushKey n p) with
       | (some m, q) => (some m, q)
       | (none, q) => (some n, q)) := by
  rw [find, if_pos h]

theorem goChildren_nil (position : Nat) (p : List String) :
    goChildren position [] p = (none, p) := by
  rw [goChildren]

theorem goChildren_cons (position : Nat) (c : YAMLNode) (rest : List YAMLNode)
    (p : List String) :
    goChildren position (c :: rest) p =
      (match find position c p with
       | (some m, q) => (some m, q)
       | (none, q) => goChildren position rest q) := by
  rw [goChildren]

theorem goChildren_cons_some (position : Nat) (c : YAMLNode)
    (rest : List YAMLNode) (p : List String) (m : YAMLNode) (q : List String)
    (h : find position c p = (some m, q)) :
    goChildren position (c :: rest) p = (some m, q) := by
  rw [goChildren_cons, h]

theorem goChildren_cons_none (position : Nat) (c : YAMLNode)
    (rest : List YAMLNode) (p : List String) (q : List String)
    (h : find position c p = (none, q)) :
    goChildren position (c :: rest) p = goChildren position rest q := by
  rw [goChildren_cons, h]

theorem find_in_some (position : Nat) (n : YAMLNode) (p : List String)
    (m : YAMLNode) (q : List String)
    (hin : n.startPosition ≤ position ∧ position ≤ n.endPosition)
    (hg : goChildren position (children n) (pushKey n p) = (some m, q)) :
    find position n p = (some m, q) := by
  rw [find_in position n p hin, hg]

theorem find_in_none (position : Nat) (n : YAMLNode) (p : List String)
    (q : List String)
    (hin : n.startPosition ≤ position ∧ position ≤ n.endPosition)
    (hg : goChildren position (children n) (pushKey n p) = (none, q)) :
    find position n p = (some n, q) := by
  rw [find_in position n p hin, hg]

theorem goChildren_skip (position : Nat) (l1 tail : List YAMLNode) :
    ∀ (p : List String),
      (∀ c ∈ l1, ¬(c.startPosition ≤ position ∧ position ≤ c.endPosition)) →
      goChildren position (l1 ++ tail) p = goChildren position tail p := by
  induction l1 with
  | nil => intro p _; rfl
  | cons c rest ih =>
    intro p hout
    rw [List.cons_append, goChildren_cons,
      find_out position c p (hout c (by simp))]
    exact ih p fun c' hc' => hout c' (by simp [hc'])

theorem wfSpans_def (n : YAMLNode) :
    wfSpans n ↔
      ((∀ c ∈ children n, n.startPosition ≤ c.startPosition ∧
          c.endPosition ≤ n.endPosition ∧ wfSpans c) ∧
        (children n).Pairwise spanDisjoint) := by
  rw [wfSpans]

theorem siblingsDisjoint_def (n : YAMLNode) :
    siblingsDisjoint n ↔
      ((children n).Pairwise spanDisjoint ∧
        ∀ c ∈ children n, siblingsDisjoint c) := by
  rw [siblingsDisjoint]

theorem descend_span {n : YAMLNode} {cs : List YAMLNode} {L : YAMLNode}
    (hd : Descend n cs L) :
    wfSpans n → n.startPosition ≤ L.startPosition ∧
      L.endPosition ≤ n.endPosition ∧ wfSpans L := by
  induction hd with
  | refl n => exact fun hwf => ⟨Nat.le_refl _, Nat.le_refl _, hwf⟩
  | step hc hrest ih =>
    intro hwf
    obtain ⟨hch, _⟩ := (wfSpans_def _).mp hwf
    obtain ⟨h1, h2, hwfc⟩ := hch _ hc
    obtain ⟨h3, h4, hwfL⟩ := ih hwfc
    exact ⟨Nat.le_trans h1 h3, Nat.le_trans h4 h2, hwfL⟩

theorem find_locates_leaf (position : Nat) :
    ∀ (k : Nat) (n : YAMLNode), sizeOf n ≤ k →
      ∀ (cs : List YAMLNode) (L : YAMLNode) (p : List String),
      wfSpans n → Descend n cs L → children L = [] →
      L.startPosition < position → position < L.endPosition →
      find position n p = (some L, p ++ chainKeys (n :: cs)) := by
  intro k
  induction k with
  | zero =>
    intro n hk
    exact absurd hk (by have := YAMLNode.sizeOf_pos n; omega)
  | succ k ih =>
    intro n hk cs L p hwf hd hleaf h1 h2
    obtain ⟨hs1, hs2, _⟩ := descend_span hd hwf
    have hin : n.startPosition ≤ position ∧ position ≤ n.endPosition := by
      constructor <;> omega
    cases hd with
    | refl =>
      rw [find_in position n p hin, hleaf, goChildren_nil]
      rw [chainKeys_cons, chainKeys_nil, List.append_nil, ← pushKey_eq]
    | step hc hrest =>
      rename_i c rest
      obtain ⟨hch, hpw⟩ := (wfSpans_def n).mp hwf
      obtain ⟨_, _, hwfc⟩ := hch c hc
      obtain ⟨hc1, hc2, _⟩ := descend_span hrest hwfc
      obtain ⟨l1, l2, hsplit⟩ := List.append_of_mem hc
      have hout : ∀ c' ∈ l1,
          ¬(c'.startPosition ≤ position ∧ position ≤ c'.endPosition) := by
        intro c' hc'
        have hcross := ((List.pairwise_append.mp (hsplit ▸ hpw)).2.2) c' hc'
          c (by simp)
        rcases hcross with hlt | hlt <;>
          · intro hcontra
            omega
      have hstep : goChildren position (children n) (pushKey n p) =
          (some L, pushKey n p ++ chainKeys (c :: rest)) := by
        rw [hsplit, goChildren_skip position l1 (c :: l2) (pushKey n p) hout]
        exact goChildren_cons_some position c l2 (pushKey n p) L _
          (ih c (by have := sizeOf_mem_children hc; omega) rest L
            (pushKey n p) hwfc hrest hleaf h1 h2)
      rw [find_in_some position n p L _ hin hstep]
      simp [pushKey_eq, chainKeys_cons, List.append_assoc]

/-- Claim C2: for any offset strictly inside the span of a leaf node `L`
reachable from the root by a descent chain, in an AST with well-formed
spans, `findNode` returns `L` (the deepest node whose span contains the
offset, earlier-listed children preferred) together with the keys of the
truthy-keyed nodes along the chain, in root-to-node order. -/
theorem C2_findNode_locates_leaf (root L : YAMLNode) (cs : List YAMLNode)
    (position : Nat) (hwf : wfSpans root) (hd : Descend root cs L)
    (hleaf : children L = []) (h1 : L.startPosition < position)
    (h2 : position < L.endPosition) :
    findNode root position = (some L, chainKeys (root :: cs)) := by
  unfold findNode
  rw [find_locates_leaf position (sizeOf root) root (Nat.le_refl _) cs L []
    hwf hd hleaf h1 h2]
  rfl

theorem wfSpans_leafNode (s e : Nat) (k : Option KeyNode) (r : String) :
    wfSpans (.mk s e k none none none r) := by
  rw [wfSpans_def]
  constructor
  · intro c hc
    simp [children, YAMLNode.mappings, YAMLNode.value] at hc
  · simp [children, YAMLNode.mappings, YAMLNode.value]

/-- Witness for C2: a two-level AST; the offset 3 lies strictly inside the
keyed leaf child spanning `[2, 6]`. -/
theorem C2_findNode_locates_leaf_witness :
    findNode
        (.mk 0 10 none none
          (some [.mk 2 6 (some ⟨"jobs"⟩) none none none ""]) none "")
        3 =
      (some (.mk 2 6 (some ⟨"jobs"⟩) none none none ""), ["jobs"]) := by
  have hd : Descend
      (.mk 0 10 none none
        (some [.mk 2 6 (some ⟨"jobs"⟩) none none none ""]) none "")
      [.mk 2 6 (some ⟨"jobs"⟩) none none none ""]
      (.mk 2 6 (some ⟨"jobs"⟩) none none none "") :=
    Descend.step (by simp [children, YAMLNode.mappings]) (Descend.refl _)
  have hwf : wfSpans
      (.mk 0 10 none none
        (some [.mk 2 6 (some ⟨"jobs"⟩) none none none ""]) none "") := by
    rw [wfSpans_def]
    constructor
    · intro c hc
      simp only [children, YAMLNode.mappings] at hc
      simp only [List.mem_singleton] at hc
      subst hc
      exact ⟨by simp [YAMLNode.startPosition], by
        simp [YAMLNode.endPosition], wfSpans_leafNode 2 6 (some ⟨"jobs"⟩) ""⟩
    · simp [children, YAMLNode.mappings]
  have h := C2_findNode_locates_leaf
    (.mk 0 10 none none
      (some [.mk 2 6 (some ⟨"jobs"⟩) none none none ""]) none "")
    (.mk 2 6 (some ⟨"jobs"⟩) none none none "")
    [.mk 2 6 (some ⟨"jobs"⟩) none none none ""]
    3 hwf hd (by simp [children, YAMLNode.mappings, YAMLNode.value])
    (by simp [YAMLNode.startPosition]) (by simp [YAMLNode.endPosition])
  rw [h]
  rfl

theorem find_path_residue (position : Nat) :
    ∀ (k : Nat) (n : YAMLNode), sizeOf n ≤ k →
      ∀ (p : List String),
      (∀ m q, find position n p = (some m, q) →
        ∃ cs, Descend n cs m ∧ q = p ++ chainKeys (n :: cs)) ∧
      (∀ q, find position n p = (none, q) → q = p) := by
  intro k
  induction k with
  | zero =>
    intro n hk
    exact absurd hk (by have := YAMLNode.sizeOf_pos n; omega)
  | succ k ih =>
    intro n hk p
    by_cases hin : n.startPosition ≤ position ∧ position ≤ n.endPosition
    · have hlist : ∀ (cs : List YAMLNode), (∀ c ∈ cs, sizeOf c ≤ k) →
          ∀ (q0 : List String),
          (∀ m q, goChildren position cs q0 = (some m, q) →
            ∃ c ∈ cs, ∃ ds, Descend c ds m ∧
              q = q0 ++ chainKeys (c :: ds)) ∧
          (∀ q, goChildren position cs q0 = (none, q) → q = q0) := by
        intro cs
        induction cs with
        | nil =>
          intro _ q0
          refine ⟨fun m q hq => ?_, fun q hq => ?_⟩
          · rw [goChildren_nil] at hq
            cases hq
          · rw [goChildren_nil] at hq
            cases hq
            rfl
        | cons c rest ihl =>
          intro hsz q0
          have hc := ih c (hsz c (by simp)) q0
          refine ⟨fun m q hq => ?_, fun q hq => ?_⟩
          · cases hfc : find position c q0 with
            | mk fst snd =>
              cases fst with
              | some m0 =>
                rw [goChildren_cons_some position c rest q0 m0 snd hfc] at hq
                injection hq with h1 h2
                injection h1 with h1
                obtain ⟨ds, hds, hqeq⟩ := hc.1 m0 snd hfc
                exact ⟨c, by simp, ds, h1 ▸ hds, h2 ▸ hqeq⟩
              | none =>
                rw [goChildren_cons_none position c rest q0 snd hfc] at hq
                have hsnd : snd = q0 := hc.2 snd hfc
                subst hsnd
                obtain ⟨c', hc', ds, hds, hqeq⟩ :=
                  (ihl (fun x hx => hsz x (by simp [hx])) snd).1 m q hq
                exact ⟨c', by simp [hc'], ds, hds, hqeq⟩
          · cases hfc : find position c q0 with
            | mk fst snd =>
              cases fst with
              | some m0 =>
                rw [goChildren_cons_some position c rest q0 m0 snd hfc] at hq
                cases hq
              | none =>
                rw [goChildren_cons_none position c rest q0 snd hfc] at hq
                have hsnd : snd = q0 := hc.2 snd hfc
                subst hsnd
                exact (ihl (fun x hx => hsz x (by simp [hx])) snd).2 q hq
      have hlist1 := hlist (children n)
        (fun c hc => by have := sizeOf_mem_children hc; omega) (pushKey n p)
      refine ⟨fun m q hq => ?_, fun q hq => ?_⟩
      · cases hg : goChildren position (children n) (pushKey n p) with
        | mk fst snd =>
          cases fst with
          | some m0 =>
            rw [find_in_some position n p m0 snd hin hg] at hq
            injection hq with h1 h2
            injection h1 with h1
            obtain ⟨c, hcmem, ds, hds, hqeq⟩ := hlist1.1 m0 snd hg
            refine ⟨c :: ds, Descend.step hcmem (h1 ▸ hds), ?_⟩
            rw [← h2, hqeq]
            simp [pushKey_eq, chainKeys_cons, List.append_assoc]
          | none =>
            rw [find_in_none position n p snd hin hg] at hq
            injection hq with h1 h2
            injection h1 with h1
            have hsnd : snd = pushKey n p := hlist1.2 snd hg
            refine ⟨[], h1 ▸ Descend.refl n, ?_⟩
            rw [← h2, hsnd, pushKey_eq, chainKeys_cons, chainKeys_nil,
              List.append_nil]
      · cases hg : goChildren position (children n) (pushKey n p) with
        | mk fst snd =>
          cases fst with
          | some m0 =>
            rw [find_in_some position n p m0 snd hin hg] at hq
            cases hq
          | none =>
            rw [find_in_none position n p snd hin hg] at hq
            cases hq
    · refine ⟨fun m q hq => ?_, fun q hq => ?_⟩
      · rw [find_out position n p hin] at hq
        cases hq
      · rw [find_out position n p hin] at hq
        cases hq
        rfl

set_option linter.unusedVariables false in
/-- Claim C10: starting from a fresh empty path, in an AST whose sibling
spans are pairwise disjoint, the returned path is exactly the keys of the
truthy-keyed nodes on the chain from the root to the returned node, in
root-to-node order; a branch that fails the containment test contributes
no segment, so failed siblings leave no residue (and when no node is
returned the path is empty). -/
theorem C10_findNode_path_no_residue (root : YAMLNode) (position : Nat)
    (hdisj : siblingsDisjoint root) :
    (∀ m, (findNode root position).1 = some m →
      ∃ cs, Descend root cs m ∧
        (findNode root position).2 = chainKeys (root :: cs)) ∧
    ((findNode root position).1 = none → (findNode root position).2 = []) := by
  have h := find_path_residue position (sizeOf root) root (Nat.le_refl _) []
  unfold findNode
  cases hf : find position root [] with
  | mk fst snd =>
    refine ⟨fun m hm => ?_, fun hm => ?_⟩
    · simp only at hm
      subst hm
      obtain ⟨cs, hcs, hq⟩ := h.1 _ snd hf
      exact ⟨cs, hcs, by simpa using hq⟩
    · simp only at hm
      subst hm
      simpa using h.2 snd hf

/-- Witness for C10 at a concrete two-node AST and the offset 50, which
lies outside every span: no node is found and the path is empty. -/
theorem C10_findNode_path_no_residue_witness :
    (findNode
      (.mk 0 10 none none
        (some [.mk 2 6 (some ⟨"jobs"⟩) none none none "",
               .mk 7 9 (some ⟨"on"⟩) none none none ""]) none "") 50).2 =
      [] := by
  have hdisj : siblingsDisjoint
      (.mk 0 10 none none
        (some [.mk 2 6 (some ⟨"jobs"⟩) none none none "",
               .mk 7 9 (some ⟨"on"⟩) none none none ""]) none "") := by
    rw [siblingsDisjoint_def]
    constructor
    · simp only [children, YAMLNode.mappings]
      refine List.Pairwise.cons ?_ (List.Pairwise.cons ?_ List.Pairwise.nil)
      · intro b hb
        simp only [List.mem_singleton] at hb
        subst hb
        exact Or.inl (by simp [YAMLNode.startPosition, YAMLNode.endPosition])
      · intro b hb
        simp at hb
    · intro c hc
      simp only [children, YAMLNode.mappings] at hc
      rcases List.mem_cons.mp hc with hc1 | hc1
      · subst hc1
        rw [siblingsDisjoint_def]
        exact ⟨by simp [children, YAMLNode.mappings, YAMLNode.value],
          fun c hc => by
            simp [children, YAMLNode.mappings, YAMLNode.value] at hc⟩
      · simp only [List.mem_singleton] at hc1
        subst hc1
        rw [siblingsDisjoint_def]
        exact ⟨by simp [children, YAMLNode.mappings, YAMLNode.value],
          fun c hc => by
            simp [children, YAMLNode.mappings, YAMLNode.value] at hc⟩
  have hnone : (findNode
      (.mk 0 10 none none
        (some [.mk 2 6 (some ⟨"jobs"⟩) none none none "",
               .mk 7 9 (some ⟨"on"⟩) none none none ""]) none "") 50).1 =
      none := by
    unfold findNode
    rw [find_out 50 _ [] (by decide)]
  exact (C10_findNode_path_no_residue _ 50 hdisj).2 hnone

/-! ### Claim C7: the filename regex against the glob selector -/

theorem splitOnChar_ne_nil (sep : Char) (s : List Char) :
    splitOnChar sep s ≠ [] := by
  cases s with
  | nil => simp [splitOnChar]
  | cons c rest =>
    rw [splitOnChar]
    split
    · simp
    · split <;> simp

theorem splitOnChar_join (sep : Char) (s : List Char) :
    joinWithChar sep (splitOnChar sep s) = s := by
  induction s with
  | nil => rfl
  | cons c rest ih =>
    rw [splitOnChar]
    by_cases hc : c = sep
    · rw [if_pos (by simp [hc])]
      cases hr : splitOnChar sep rest with
      | nil => exact absurd hr (splitOnChar_ne_nil sep rest)
      | cons h t =>
        rw [joinWithChar, ← hr, ih] <;> simp [hc]
    · rw [if_neg (by simp [hc])]
      cases hr : splitOnChar sep rest with
      | nil => exact absurd hr (splitOnChar_ne_nil sep rest)
      | cons h t =>
        cases t with
        | nil =>
          have hrest : rest = h := by
            rw [← ih, hr, joinWithChar]
          rw [joinWithChar, hrest]
        | cons t0 ts =>
          have hrest : rest = h ++ sep :: joinWithChar sep (t0 :: ts) := by
            rw [← ih, hr, joinWithChar]
            simp
          rw [joinWithChar, hrest] <;> simp

theorem join_append_three (sep : Char) :
    ∀ (pre : List (List Char)) (a b c : List Char),
      ∃ p, joinWithChar sep (pre ++ [a, b, c]) =
        p ++ (a ++ sep :: (b ++ sep :: c)) := by
  intro pre
  induction pre with
  | nil =>
    intro a b c
    exact ⟨[], by simp [joinWithChar]⟩
  | cons x xs ih =>
    intro a b c
    obtain ⟨p, hp⟩ := ih a b c
    refine ⟨x ++ sep :: p, ?_⟩
    have hne : xs ++ [a, b, c] ≠ [] := by simp
    cases hxs : xs ++ [a, b, c] with
    | nil => exact absurd hxs hne
    | cons y ys =>
      rw [List.cons_append, hxs, joinWithChar, ← hxs, hp] <;> simp

theorem endsWith_inv {l t : List Char} (h : endsWithList l t = true) :
    ∃ b, l = b ++ t := by
  unfold endsWithList at h
  rw [beq_iff_eq] at h
  refine ⟨(l.reverse.drop t.length).reverse, ?_⟩
  have h1 : l.reverse = t.reverse ++ l.reverse.drop t.length := by
    rw [← h]
    exact (List.take_append_drop _ _).symm
  have h2 := congrArg List.reverse h1
  rw [List.reverse_reverse, List.reverse_append, List.reverse_reverse] at h2
  exact h2

theorem comp_eq (f : List Char) :
    ".github".data ++ '/' :: ("workflows".data ++ '/' :: f) =
      '.' :: (workflowsLit ++ f) := by
  have h1 : ".github".data = '.' :: "github".data := by decide
  have h2 : workflowsLit = "github".data ++ '/' :: ("workflows".data ++ ['/']) := by
    decide
  rw [h1, h2]
  simp

/-- Counterexample to claim C7: the regex-based check and the glob
selector do not recognize the same set of paths.  `a.github/workflows/byml`
is accepted by the unanchored regex (its `.` matches the `a` before
`github`, and `ya?ml` accepts `yml` with no dot before it) but rejected by
the glob (no literal `.github` component and no `.yml` extension);
likewise `/a/.github/workflows/ci.yaml.bak` is regex-accepted (nothing
anchors the end of the name) but glob-rejected. -/
theorem C7_counterexample :
    jsRegexWorkflowMatch "a.github/workflows/byml".data = true ∧
      matchesWorkflowGlob "a.github/workflows/byml".data = false ∧
      jsRegexWorkflowMatch "/a/.github/workflows/ci.yaml.bak".data = true ∧
      matchesWorkflowGlob "/a/.github/workflows/ci.yaml.bak".data = false := by
  refine ⟨by decide, by decide, by decide, by decide⟩

/-- Claim C7 amended: the two recognizers are not equivalent; the
regex-based check accepts a strict superset.  Every path the glob
selector accepts is accepted by the regex-based check, provided the path
contains no line-terminator characters (the converse fails, per the
counterexample). -/
theorem C7_amended (s : List Char)
    (hnl : ∀ c ∈ s, isLineTerminator c = false)
    (hg : matchesWorkflowGlob s = true) :
    jsRegexWorkflowMatch s = true := by
  unfold matchesWorkflowGlob at hg
  cases hrev : (splitOnChar '/' s).reverse with
  | nil => rw [hrev] at hg; cases hg
  | cons f rest1 =>
    cases rest1 with
    | nil => rw [hrev] at hg; cases hg
    | cons w rest2 =>
      cases rest2 with
      | nil => rw [hrev] at hg; cases hg
      | cons g rest =>
        rw [hrev] at hg
        simp only [Bool.and_eq_true, Bool.or_eq_true, beq_iff_eq] at hg
        obtain ⟨⟨hgeq, hweq⟩, hfe⟩ := hg
        have hparts : splitOnChar '/' s = rest.reverse ++ [g, w, f] := by
          have hx := congrArg List.reverse hrev
          rw [List.reverse_reverse] at hx
          rw [hx]
          simp
        have hjoin := splitOnChar_join '/' s
        rw [hparts] at hjoin
        obtain ⟨p0, hp0⟩ := join_append_three '/' rest.reverse g w f
        rw [hp0] at hjoin
        subst hgeq hweq
        rw [comp_eq f] at hjoin
        have main : ∀ (tail : List Char),
            (tail = "yaml".data ∨ tail = "yml".data) →
            ∀ base, f = base ++ '.' :: tail →
            jsRegexWorkflowMatch s = true := by
          intro tail htail base hfb
          subst hfb
          have hs2 : s = ((p0 ++ ['.']) ++ workflowsLit ++ base ++ ['.']) ++
              tail := by
            rw [← hjoin]
            simp
          have hwl : workflowsLit.length = 17 := by decide
          have hslen : s.length =
              p0.length + 19 + base.length + tail.length := by
            rw [hs2]
            simp [hwl]
            omega
          have hok : ∀ t, t < s.length → okDot s t = true := by
            intro t ht
            unfold okDot
            rw [List.getElem?_eq_getElem ht]
            simp [hnl _ (List.getElem_mem ht)]
          rw [jsRegexWorkflowMatch, List.any_eq_true]
          refine ⟨p0.length + 1, List.mem_range.mpr (by omega), ?_⟩
          simp only [Bool.and_eq_true, decide_eq_true_eq]
          refine ⟨⟨⟨by omega, ?_⟩, ?_⟩, ?_⟩
          · have : p0.length + 1 - 1 = p0.length := by omega
            rw [this]
            exact hok p0.length (by omega)
          · unfold sublistAt
            have hdrop : s.drop (p0.length + 1) =
                workflowsLit ++ (base ++ '.' :: tail) := by
              have hs3 : s = (p0 ++ ['.']) ++
                  (workflowsLit ++ (base ++ '.' :: tail)) := by
                rw [← hjoin]; simp
              rw [hs3,
                show p0.length + 1 = (p0 ++ ['.']).length by simp,
                List.drop_left]
            rw [hdrop, List.take_left]
            simp
          · rw [List.any_eq_true]
            refine ⟨p0.length + 18 + base.length,
              List.mem_range.mpr (by omega), ?_⟩
            simp only [Bool.and_eq_true, decide_eq_true_eq]
            refine ⟨⟨⟨by omega, ?_⟩, ?_⟩, ?_⟩
            · exact hok _ (by omega)
            · rw [List.all_eq_true]
              intro t ht
              rw [List.mem_range'_1] at ht
              exact hok t (by omega)
            · have hdrop2 : s.drop (p0.length + 18 + base.length + 1) =
                  tail := by
                rw [hs2,
                  show p0.length + 18 + base.length + 1 =
                    ((p0 ++ ['.']) ++ workflowsLit ++ base ++ ['.']).length by
                      simp [hwl]; omega,
                  List.drop_left]
              unfold sublistAt
              rcases htail with h | h <;>
                · subst h
                  rw [hdrop2]
                  simp [List.take_length]
        rcases hfe with hfy | hfy
        · obtain ⟨base, hb⟩ := endsWith_inv hfy
          exact main "yaml".data (Or.inl rfl) base (by rw [hb])
        · obtain ⟨base, hb⟩ := endsWith_inv hfy
          exact main "yml".data (Or.inr rfl) base (by rw [hb])

/-- Witness for C7's amended claim at a concrete glob-accepted path. -/
theorem C7_amended_witness :
    jsRegexWorkflowMatch "/r/.github/workflows/ci.yml".data = true :=
  C7_amended "/r/.github/workflows/ci.yml".data (by decide) (by decide)


end GHA
